import Mathlib

/-!
Verification development for the charge-extraction module of ctapipe
(src/ctapipe/image/charge_extractors.py).

A waveform cube (numpy array of shape (n_chan, n_pix, n_samples), floating
point samples) is embedded as a nested list of rationals: the outer list
runs over channels, the middle list over pixels, the inner list over time
samples.  Numpy floating point arithmetic is embedded as exact rational
arithmetic.  Python/numpy behaviours that matter to the claims are embedded
explicitly:

* basic slicing `l[a:b]` on the sample axis follows the Python rule that a
  negative bound counts from the end of the list (`pySlice`);
* `numpy.round` rounds halves to the nearest even integer (`roundHalfEven`);
* `numpy.argmax` and `numpy.max` resolve ties to the first occurrence
  (`argmax`, `maxVal`);
* division by zero, which numpy turns into inf/nan, is the Lean convention
  `x / 0 = 0`; the claims settled below avoid zero denominators except where
  explicitly discussed;
* the numba-compiled kernel `neighbor_average_waveform` performs no bounds
  checking; an access through an out-of-range index, which is undefined
  behaviour in the compiled kernel, is embedded totally: an out-of-range
  read contributes the default sample value 0 and an out-of-range write is
  dropped.
-/

namespace Ctapipe

/-- Waveform cube: channels, then pixels, then time samples. -/
abbrev Cube := List (List (List ℚ))

/-- Pixel row of a cube: channel `c`, pixel `p` (default empty). -/
def row2 (w : Cube) (c p : ℕ) : List ℚ := (w.getD c []).getD p []

/-- Sample of a cube at channel `c`, pixel `p`, time `t` (default 0). -/
def at3 (w : Cube) (c p t : ℕ) : ℚ := (row2 w c p).getD t 0

/-- Entry of a 2-D (channel, pixel) array (default 0). -/
def at2 (a : List (List ℚ)) (c p : ℕ) : ℚ := (a.getD c []).getD p 0

/-- Entry of a 2-D (channel, pixel) integer array (default 0). -/
def atI2 (a : List (List ℤ)) (c p : ℕ) : ℤ := (a.getD c []).getD p 0

/-- Mask row of a 3-D boolean array at channel `c`, pixel `p`. -/
def mrow (m : List (List (List Bool))) (c p : ℕ) : List Bool := (m.getD c []).getD p []

/-- Shape of a cube: per channel, the list of sample counts of its pixels.
Two cubes have the same numpy shape iff their `shape3` agree (given both are
rectangular). -/
def shape3 (w : Cube) : List (List ℕ) := w.map (fun ch => ch.map List.length)

/-- Per-channel pixel counts of a cube (the (n_chan, n_pix) profile). -/
def pixDims (w : Cube) : ℕ × List ℕ := (w.length, w.map List.length)

/-- Dimensions of a 2-D array: outer length and row lengths. -/
def dim2 (a : List (List α)) : ℕ × List ℕ := (a.length, a.map List.length)

/-- Rectangularity: `w` has exactly `C` channels, `P` pixels per channel and
`S` samples per pixel. -/
def CubeShape (w : Cube) (C P S : ℕ) : Prop :=
  w.length = C ∧ ∀ ch ∈ w, ch.length = P ∧ ∀ px ∈ ch, px.length = S

instance (w : Cube) (C P S : ℕ) : Decidable (CubeShape w C P S) := by
  unfold CubeShape; infer_instance

/-- Python slice bound resolution for a list of length `n`: a negative bound
counts from the end (`n + a`), and bounds are clamped to `[0, n]`. -/
def pySliceIdx (n : ℕ) (a : ℤ) : ℕ := (if a < 0 then max (a + n) 0 else min a n).toNat

/-- Python basic slice `l[a:b]` (step 1). -/
def pySlice (l : List α) (a b : ℤ) : List α :=
  (l.take (pySliceIdx l.length b)).drop (pySliceIdx l.length a)

/-- Boolean integration-window row: entry `t` is `start <= t < stop`, for
`t < n`.  This embeds the vectorised comparison
`(ind >= start) & (ind < end)` of the source on one sample row. -/
def windowMaskRow (start stop : ℤ) (n : ℕ) : List Bool :=
  (List.range n).map (fun t : ℕ => decide (start ≤ (t : ℤ) ∧ (t : ℤ) < stop))

/-- Multiply-and-reduce of a sample row against a boolean mask row; embeds
`(waveforms * integration_window).sum(axis=2)` on one row (True counts as 1). -/
def maskedSum (w : List ℚ) (m : List Bool) : ℚ :=
  ((w.zip m).map (fun xb => xb.1 * (if xb.2 then 1 else 0))).sum

/-- Sum of the samples of `w` whose index lies in the half-open window
`[s, e)` intersected with `[0, n)`: the window sum with out-of-range window
edges simply excluded. -/
def windowSum (w : List ℚ) (s e : ℤ) : ℚ := maskedSum w (windowMaskRow s e w.length)

/-- Index of the first maximal element (numpy argmax tie rule); `bi` and
`bv` track the current best index and value, `i` the index of the head. -/
def argmaxAux : List ℚ → ℕ → ℕ → ℚ → ℕ
  | [], _, bi, _ => bi
  | x :: xs, i, bi, bv => if bv < x then argmaxAux xs (i + 1) i x else argmaxAux xs (i + 1) bi bv

/-- numpy `argmax` over one sample row: index of the first maximum
(0 on the empty row, where numpy would raise). -/
def argmax : List ℚ → ℕ
  | [] => 0
  | x :: xs => argmaxAux xs 1 0 x

/-- numpy `max` over one sample row (0 on the empty row, where numpy would
raise). -/
def maxVal : List ℚ → ℚ
  | [] => 0
  | x :: xs => xs.foldl max x

/-- numpy `round`: round half to even. -/
def roundHalfEven (x : ℚ) : ℤ :=
  let f := ⌊x⌋
  let r := x - f
  if r < 1 / 2 then f
  else if 1 / 2 < r then f + 1
  else if f % 2 = 0 then f else f + 1

/-- Rounding with ties going half away from zero: the rounding rule the
specification text prescribes for the weighted peak average. -/
def roundHalfAway (x : ℚ) : ℤ := if 0 ≤ x then ⌊x + 1 / 2⌋ else ⌈x - 1 / 2⌉

/-- numpy `average(values, weights)`: weighted sum divided by the weight sum
(numpy raises on a zero weight sum; the embedding returns 0 there). -/
def npAverage (vals weights : List ℚ) : ℚ :=
  (List.zipWith (· * ·) vals weights).sum / weights.sum

/-- numpy `mean` over the pixel axis of one channel: sample `t` of the
result is the mean over the pixels of their sample `t`.  The sample count is
read off the first pixel (all pixels agree on a rectangular cube). -/
def meanRow (ch : List (List ℚ)) : List ℚ :=
  (List.range (ch.headD []).length).map
    (fun t => (ch.map (fun px => px.getD t 0)).sum / (ch.length : ℚ))

/-- Replace the entry at index `i` by `f` applied to it; out-of-range
indices leave the list unchanged. -/
def modIdx : List α → ℕ → (α → α) → List α
  | [], _, _ => []
  | x :: xs, 0, f => f x :: xs
  | x :: xs, i + 1, f => x :: modIdx xs i f

/-- Elementwise sum of two sample rows, keeping the length of the first row;
a missing right entry contributes 0 (this paddding only matters for the
undefined out-of-range reads of the kernel, see the module docstring). -/
def addRow : List ℚ → List ℚ → List ℚ
  | l, [] => l
  | [], _ :: _ => []
  | x :: xs, y :: ys => (x + y) :: addRow xs ys

/-- One edge step of the numba kernel: for edge `e = (pixel, neighbor)` and
every channel, add `waveforms[channel, neighbor]` into
`sum_[channel, pixel]` and add 1 to every entry of `n[channel, pixel]`. -/
def navStep (waveforms : Cube) (st : Cube × Cube) (e : ℕ × ℕ) : Cube × Cube :=
  ((st.1.zip waveforms).map (fun cw => modIdx cw.1 e.1 (fun row => addRow row (cw.2.getD e.2 []))),
   st.2.map (fun nc => modIdx nc e.1 (fun row => row.map (· + 1))))

/-- Initial kernel state: the accumulator `sum_ = waveforms * lwt` and the
counter `n = np.zeros(waveforms.shape)`. -/
def navInit (waveforms : Cube) (lwt : ℤ) : Cube × Cube :=
  (waveforms.map (fun ch => ch.map (fun px => px.map (fun x => x * (lwt : ℚ)))),
   waveforms.map (fun ch => ch.map (fun px => px.map (fun _ => (0 : ℚ)))))

/-- The numba kernel `neighbor_average_waveform`:
`sum_ = waveforms * lwt`, `n = np.zeros(waveforms.shape)`, one `navStep` per
edge, and finally the elementwise quotient `sum_ / n`.  The source performs
no bounds check on the edge indices (see the module docstring). -/
def neighbor_average_waveform (waveforms : Cube) (neighbors : List (ℕ × ℕ)) (lwt : ℤ) : Cube :=
  ((neighbors.foldl (navStep waveforms) (navInit waveforms lwt)).1.zip
    (neighbors.foldl (navStep waveforms) (navInit waveforms lwt)).2).map
    (fun cn => (cn.1.zip cn.2).map (fun pn => List.zipWith (· / ·) pn.1 pn.2))

/-- The local array `start = peakpos - shift` of
`extract_charge_from_peakpos_array`. -/
def ecStart (peakpos : List (List ℤ)) (shift : ℤ) : List (List ℤ) :=
  peakpos.map (fun ppc => ppc.map (fun pk => pk - shift))

/-- The local array `end = start + width` of
`extract_charge_from_peakpos_array`. -/
def ecStop (peakpos : List (List ℤ)) (width shift : ℤ) : List (List ℤ) :=
  (ecStart peakpos shift).map (fun sc => sc.map (fun s => s + width))

/-- The local array `integration_window` of
`extract_charge_from_peakpos_array`: the vectorised comparison
`(ind >= start[..., np.newaxis]) & (ind < end[..., np.newaxis])`. -/
def ecWindow (waveforms : Cube) (peakpos : List (List ℤ)) (width shift : ℤ) :
    List (List (List Bool)) :=
  (waveforms.zip ((ecStart peakpos shift).zip (ecStop peakpos width shift))).map
    (fun cse => (cse.1.zip (cse.2.1.zip cse.2.2)).map
      (fun pse => windowMaskRow pse.2.1 pse.2.2 pse.1.length))

/-- The free function `extract_charge_from_peakpos_array`:
`start = peakpos - shift`, `end = start + width`, boolean window by
vectorised comparison of the sample index against `start` and `end`, and
`charge = (waveforms * integration_window).sum(axis=2)`. -/
def extract_charge_from_peakpos_array (waveforms : Cube) (peakpos : List (List ℤ))
    (width shift : ℤ) : List (List ℚ) × List (List (List Bool)) :=
  ((waveforms.zip (ecWindow waveforms peakpos width shift)).map
    (fun cm => (cm.1.zip cm.2).map (fun pm => maskedSum pm.1 pm.2)),
   ecWindow waveforms peakpos width shift)

/-- All-zero integer (channel, pixel) array of the shape of the cube:
`np.zeros(waveforms.shape[:2], dtype=np.intp)`. -/
def zeros2 (w : Cube) : List (List ℤ) := w.map (fun ch => ch.map (fun _ => (0 : ℤ)))

/-- All-True boolean array of the shape of the cube:
`np.ones(waveforms.shape, dtype=np.bool)`. -/
def onesMask (w : Cube) : List (List (List Bool)) :=
  w.map (fun ch => ch.map (fun px => px.map (fun _ => true)))

/-- FullIntegrator.extract_charge: total sum over samples, zero peak
positions, all-True window. -/
def FullIntegrator.extract_charge (waveforms : Cube) :
    List (List ℚ) × List (List ℤ) × List (List (List Bool)) :=
  (waveforms.map (fun ch => ch.map List.sum), zeros2 waveforms, onesMask waveforms)

/-- SimpleIntegrator.extract_charge: charge is the sum over the Python slice
`waveforms[..., start:end]` with `start = window_start` and
`end = window_start + window_width`; peak positions are zero and the
returned window is all-True. -/
def SimpleIntegrator.extract_charge (window_start window_width : ℤ) (waveforms : Cube) :
    List (List ℚ) × List (List ℤ) × List (List (List Bool)) :=
  (waveforms.map (fun ch => ch.map (fun px =>
      (pySlice px window_start (window_start + window_width)).sum)),
   zeros2 waveforms, onesMask waveforms)

/-- Per-channel peak position of GlobalPeakIntegrator:
`np.round(np.average(waveforms.argmax(2), weights=waveforms.max(2), axis=1))`
cast to int. -/
def globalPeakPeakpos (waveforms : Cube) : List ℤ :=
  waveforms.map (fun ch =>
    roundHalfEven (npAverage (ch.map (fun px => (argmax px : ℚ))) (ch.map maxVal)))

/-- Shared tail of GlobalPeakIntegrator and AverageWfPeakIntegrator given
the per-channel peak positions: `start = peakpos - shift`,
`end = start + width`, charge stacks the Python-sliced sums of channel 0 and
channel 1 (an `IndexError`, i.e. `none`, if the cube has fewer than two
channels), and the window is the vectorised comparison mask with the
per-channel bounds broadcast over pixels and samples. -/
def stackedExtract (peakpos : List ℤ) (width shift : ℤ) (waveforms : Cube) :
    Option (List (List ℚ) × List ℤ × List (List (List Bool))) :=
  let start := peakpos.map (fun pk => pk - shift)
  let stop := start.map (fun s => s + width)
  match waveforms.get? 0, waveforms.get? 1 with
  | some ch0, some ch1 =>
    let charge := [ch0.map (fun px => (pySlice px (start.getD 0 0) (stop.getD 0 0)).sum),
                   ch1.map (fun px => (pySlice px (start.getD 1 0) (stop.getD 1 0)).sum)]
    let window := (waveforms.zip (start.zip stop)).map
      (fun cse => cse.1.map (fun px => windowMaskRow cse.2.1 cse.2.2 px.length))
    some (charge, peakpos, window)
  | _, _ => none

/-- GlobalPeakIntegrator.extract_charge.  `none` embeds the `IndexError`
raised when the cube has fewer than two channels. -/
def GlobalPeakIntegrator.extract_charge (window_width window_shift : ℤ) (waveforms : Cube) :
    Option (List (List ℚ) × List ℤ × List (List (List Bool))) :=
  stackedExtract (globalPeakPeakpos waveforms) window_width window_shift waveforms

/-- Per-channel peak position of AverageWfPeakIntegrator:
`waveforms.mean(1).argmax(1)`. -/
def avgWfPeakpos (waveforms : Cube) : List ℤ :=
  waveforms.map (fun ch => (argmax (meanRow ch) : ℤ))

/-- AverageWfPeakIntegrator.extract_charge.  `none` embeds the `IndexError`
raised when the cube has fewer than two channels. -/
def AverageWfPeakIntegrator.extract_charge (window_width window_shift : ℤ) (waveforms : Cube) :
    Option (List (List ℚ) × List ℤ × List (List (List Bool))) :=
  stackedExtract (avgWfPeakpos waveforms) window_width window_shift waveforms

/-- LocalPeakIntegrator.extract_charge: per-pixel argmax peak positions fed
into `extract_charge_from_peakpos_array`. -/
def LocalPeakIntegrator.extract_charge (window_width window_shift : ℤ) (waveforms : Cube) :
    List (List ℚ) × List (List ℤ) × List (List (List Bool)) :=
  let peakpos := waveforms.map (fun ch => ch.map (fun px => (argmax px : ℤ)))
  let cw := extract_charge_from_peakpos_array waveforms peakpos window_width window_shift
  (cw.1, peakpos, cw.2)

/-- Error outcomes of an extraction call.  `missingTopology` embeds the
`ValueError` raised by `ChargeExtractor.check_neighbour_set` (the error the
specification calls MissingTopology); `badKernelArg` embeds the `TypeError`
numba raises when the typed kernel `neighbor_average_waveform` is invoked
with `None` in place of the `int64[:, :]` neighbours array. -/
inductive ExtractorError
  | missingTopology
  | badKernelArg
deriving DecidableEq

/-- The six concrete extraction strategies. -/
inductive Strategy
  | full
  | simple
  | globalPeak
  | localPeak
  | neighbourPeak
  | averageWfPeak
deriving DecidableEq

/-- `requires_neighbours`: overridden to True only by
NeighbourPeakIntegrator. -/
def requires_neighbours : Strategy → Bool
  | .neighbourPeak => true
  | _ => false

/-- ChargeExtractor.check_neighbour_set: raise (MissingTopology) iff the
strategy requires neighbours and none have been set. -/
def check_neighbour_set (s : Strategy) (neighbours : Option (List (ℕ × ℕ))) :
    Except ExtractorError Unit :=
  if requires_neighbours s then
    match neighbours with
    | none => .error .missingTopology
    | some _ => .ok ()
  else .ok ()

/-- NeighbourPeakIntegrator.extract_charge: the neighbour-averaged waveform
is built first, its per-pixel argmax is the peak position, and the charge is
extracted from the raw waveforms.  The body performs no
`check_neighbour_set` call: with `neighbours = None` the call dies at the
kernel invocation (numba `TypeError`, embedded as `badKernelArg`). -/
def NeighbourPeakIntegrator.extract_charge (window_width window_shift lwt : ℤ)
    (neighbours : Option (List (ℕ × ℕ))) (waveforms : Cube) :
    Except ExtractorError (List (List ℚ) × List (List ℤ) × List (List (List Bool))) :=
  match neighbours with
  | none => .error .badKernelArg
  | some ns =>
    let average_wfs := neighbor_average_waveform waveforms ns lwt
    let peakpos := average_wfs.map (fun ch => ch.map (fun px => (argmax px : ℤ)))
    let cw := extract_charge_from_peakpos_array waveforms peakpos window_width window_shift
    .ok (cw.1, peakpos, cw.2)

/-- Claim-side formalisation of the specification sentence on
GlobalPeakIntegrator peak positions: amplitude-weighted average of the
per-pixel argmax positions, rounded half away from zero (the rounding rule
the specification states). -/
def specGlobalPeakposHalfAway (waveforms : Cube) : List ℤ :=
  waveforms.map (fun ch =>
    roundHalfAway (npAverage (ch.map (fun px => (argmax px : ℚ))) (ch.map maxVal)))

/-! Generic list access lemmas used throughout. -/

theorem getD_len_le (d : α) : ∀ (l : List α) (i : ℕ), l.length ≤ i → l.getD i d = d
  | [], _, _ => rfl
  | _ :: _, 0, h => absurd h (Nat.not_succ_le_zero _)
  | _ :: xs, i + 1, h => getD_len_le d xs i (Nat.le_of_succ_le_succ h)

theorem getD_map_lt (f : α → β) (dβ : β) (dα : α) :
    ∀ (l : List α) (i : ℕ), i < l.length → (l.map f).getD i dβ = f (l.getD i dα)
  | [], i, h => absurd h (Nat.not_lt_zero i)
  | _ :: _, 0, _ => rfl
  | _ :: xs, i + 1, h => getD_map_lt f dβ dα xs i (Nat.lt_of_succ_lt_succ h)

theorem getD_zip_lt (dp : α × β) : ∀ (l : List α) (m : List β) (i : ℕ),
    i < l.length → i < m.length →
    (l.zip m).getD i dp = (l.getD i dp.1, m.getD i dp.2)
  | [], _, i, h1, _ => absurd h1 (Nat.not_lt_zero i)
  | _ :: _, [], i, _, h2 => absurd h2 (Nat.not_lt_zero i)
  | _ :: _, _ :: _, 0, _, _ => rfl
  | _ :: xs, _ :: ys, i + 1, h1, h2 =>
      getD_zip_lt dp xs ys i (Nat.lt_of_succ_lt_succ h1) (Nat.lt_of_succ_lt_succ h2)

theorem getD_zipWith_lt (f : α → β → γ) (dγ : γ) (dα : α) (dβ : β) :
    ∀ (l : List α) (m : List β) (i : ℕ), i < l.length → i < m.length →
    (List.zipWith f l m).getD i dγ = f (l.getD i dα) (m.getD i dβ)
  | [], _, i, h1, _ => absurd h1 (Nat.not_lt_zero i)
  | _ :: _, [], i, _, h2 => absurd h2 (Nat.not_lt_zero i)
  | _ :: _, _ :: _, 0, _, _ => rfl
  | _ :: xs, _ :: ys, i + 1, h1, h2 =>
      getD_zipWith_lt f dγ dα dβ xs ys i (Nat.lt_of_succ_lt_succ h1) (Nat.lt_of_succ_lt_succ h2)

theorem get?_eq_some_getD (d : α) : ∀ (l : List α) (i : ℕ), i < l.length →
    l.get? i = some (l.getD i d)
  | [], i, h => absurd h (Nat.not_lt_zero i)
  | _ :: _, 0, _ => rfl
  | _ :: xs, i + 1, h => get?_eq_some_getD d xs i (Nat.lt_of_succ_lt_succ h)

theorem ext_getD (d : α) : ∀ (l m : List α), l.length = m.length →
    (∀ i, i < l.length → l.getD i d = m.getD i d) → l = m
  | [], [], _, _ => rfl
  | [], _ :: _, h, _ => by simp at h
  | _ :: _, [], h, _ => by simp at h
  | x :: xs, y :: ys, h, hp => by
      have hx : x = y := hp 0 (Nat.succ_pos _)
      have ht : xs = ys := ext_getD d xs ys (by simpa using h)
        (fun i hi => by simpa using hp (i + 1) (by simpa using hi))
      rw [hx, ht]

theorem length_modIdx (f : α → α) : ∀ (l : List α) (i : ℕ), (modIdx l i f).length = l.length
  | [], _ => rfl
  | _ :: _, 0 => rfl
  | _ :: xs, i + 1 => by simpa [modIdx] using length_modIdx f xs i

theorem getD_modIdx (f : α → α) (d : α) : ∀ (l : List α) (i j : ℕ),
    (modIdx l i f).getD j d = if j = i ∧ i < l.length then f (l.getD j d) else l.getD j d
  | [], i, j => by simp [modIdx]
  | x :: xs, 0, 0 => by simp [modIdx]
  | x :: xs, 0, j + 1 => by simp [modIdx]
  | x :: xs, i + 1, 0 => by simp [modIdx]
  | x :: xs, i + 1, j + 1 => by
      simpa [modIdx, Nat.succ_lt_succ_iff] using getD_modIdx f d xs i j

theorem addRow_nil : ∀ (a : List ℚ), addRow a [] = a
  | [] => rfl
  | _ :: _ => rfl

theorem length_addRow : ∀ (a b : List ℚ), (addRow a b).length = a.length
  | a, [] => by rw [addRow_nil]
  | [], _ :: _ => rfl
  | _ :: xs, _ :: ys => by simpa [addRow] using length_addRow xs ys

theorem getD_addRow : ∀ (a b : List ℚ) (t : ℕ), t < a.length →
    (addRow a b).getD t 0 = a.getD t 0 + b.getD t 0
  | a, [], t, _ => by simp [addRow_nil]
  | [], _ :: _, t, h => absurd h (Nat.not_lt_zero t)
  | x :: xs, y :: ys, 0, _ => by simp [addRow]
  | x :: xs, y :: ys, t + 1, h => by
      simpa [addRow] using getD_addRow xs ys t (Nat.lt_of_succ_lt_succ h)

theorem foldl_length_inv {γ : Type _} (step : List α → γ → List α)
    (h : ∀ acc e, (step acc e).length = acc.length) :
    ∀ (es : List γ) (acc : List α), (es.foldl step acc).length = acc.length
  | [], _ => rfl
  | e :: es, acc => by rw [List.foldl_cons, foldl_length_inv step h es (step acc e), h]

/-! Lemmas on masked sums, window masks and Python slices. -/

theorem maskedSum_nil_left (m : List Bool) : maskedSum [] m = 0 := rfl

theorem maskedSum_nil_right (w : List ℚ) : maskedSum w [] = 0 := by
  simp [maskedSum]

theorem maskedSum_cons (x : ℚ) (xs : List ℚ) (b : Bool) (m : List Bool) :
    maskedSum (x :: xs) (b :: m) = x * (if b then 1 else 0) + maskedSum xs m := by
  simp [maskedSum]

theorem maskedSum_all_false : ∀ (w : List ℚ) (m : List Bool), (∀ b ∈ m, b = false) →
    maskedSum w m = 0
  | [], m, _ => maskedSum_nil_left m
  | _ :: _, [], _ => maskedSum_nil_right _
  | x :: xs, b :: m, h => by
      have hb : b = false := h b (List.mem_cons_self b m)
      rw [maskedSum_cons, hb,
        maskedSum_all_false xs m (fun b hb => h b (List.mem_cons_of_mem _ hb))]
      simp

theorem maskedSum_all_true : ∀ (w : List ℚ), maskedSum w (w.map (fun _ => true)) = w.sum
  | [] => rfl
  | x :: xs => by
      rw [List.map_cons, maskedSum_cons, maskedSum_all_true xs]
      simp

theorem length_windowMaskRow (s e : ℤ) (n : ℕ) : (windowMaskRow s e n).length = n := by
  simp [windowMaskRow]

theorem windowMaskRow_succ (s e : ℤ) (n : ℕ) :
    windowMaskRow s e (n + 1) = decide (s ≤ 0 ∧ 0 < e) :: windowMaskRow (s - 1) (e - 1) n := by
  unfold windowMaskRow
  rw [List.range_succ_eq_map, List.map_cons, List.map_map]
  have hhead : decide (s ≤ ((0 : ℕ) : ℤ) ∧ ((0 : ℕ) : ℤ) < e) = decide (s ≤ 0 ∧ 0 < e) := by
    norm_num
  have htail : ∀ t ∈ List.range n,
      ((fun t : ℕ => decide (s ≤ (t : ℤ) ∧ (t : ℤ) < e)) ∘ Nat.succ) t
        = (fun t : ℕ => decide (s - 1 ≤ (t : ℤ) ∧ (t : ℤ) < e - 1)) t := by
    intro t _
    simp only [Function.comp_apply]
    apply decide_eq_decide.mpr
    push_cast
    omega
  rw [hhead, List.map_congr_left htail]

theorem windowMaskRow_nonpos : ∀ (n : ℕ) (s t e : ℤ), s ≤ 0 → t ≤ 0 →
    windowMaskRow s e n = windowMaskRow t e n
  | 0, _, _, _, _, _ => rfl
  | n + 1, s, t, e, hs, ht => by
      rw [windowMaskRow_succ, windowMaskRow_succ,
        windowMaskRow_nonpos n (s - 1) (t - 1) (e - 1) (by omega) (by omega)]
      congr 1
      exact decide_eq_decide.mpr (by omega)

theorem windowMaskRow_all_false (s e : ℤ) (n : ℕ) (h : e ≤ s) :
    ∀ b ∈ windowMaskRow s e n, b = false := by
  intro b hb
  obtain ⟨t, _, rfl⟩ := List.mem_map.mp hb
  simp only [decide_eq_false_iff_not]
  rintro ⟨h1, h2⟩
  omega

theorem windowMaskRow_all_false_of_stop_nonpos (s e : ℤ) (n : ℕ) (h : e ≤ 0) :
    ∀ b ∈ windowMaskRow s e n, b = false := by
  intro b hb
  obtain ⟨t, _, rfl⟩ := List.mem_map.mp hb
  simp only [decide_eq_false_iff_not]
  rintro ⟨h1, h2⟩
  omega

theorem windowSum_nil (s e : ℤ) : windowSum [] s e = 0 := rfl

theorem windowSum_cons (x : ℚ) (xs : List ℚ) (s e : ℤ) :
    windowSum (x :: xs) s e
      = x * (if s ≤ 0 ∧ 0 < e then 1 else 0) + windowSum xs (s - 1) (e - 1) := by
  unfold windowSum
  rw [List.length_cons, windowMaskRow_succ, maskedSum_cons]
  simp

theorem windowSum_stop_nonpos (xs : List ℚ) (s e : ℤ) (h : e ≤ 0) : windowSum xs s e = 0 :=
  maskedSum_all_false _ _ (windowMaskRow_all_false_of_stop_nonpos _ _ _ h)

theorem windowSum_start_nonpos (xs : List ℚ) (s t e : ℤ) (hs : s ≤ 0) (ht : t ≤ 0) :
    windowSum xs s e = windowSum xs t e := by
  unfold windowSum
  rw [windowMaskRow_nonpos xs.length s t e hs ht]

theorem pySlice_nil (a b : ℤ) : pySlice ([] : List α) a b = [] := by
  simp [pySlice]

theorem pySlice_stop_zero (l : List α) (s : ℤ) : pySlice l s 0 = [] := by
  simp [pySlice, pySliceIdx]

theorem pySliceIdx_succ (n : ℕ) (a : ℤ) (h : 1 ≤ a) :
    pySliceIdx (n + 1) a = pySliceIdx n (a - 1) + 1 := by
  unfold pySliceIdx
  rw [if_neg (by omega), if_neg (by omega)]
  omega

theorem pySlice_cons_succ (x : α) (xs : List α) (s e : ℤ) (hs : 1 ≤ s) (he : 1 ≤ e) :
    pySlice (x :: xs) s e = pySlice xs (s - 1) (e - 1) := by
  unfold pySlice
  rw [List.length_cons, pySliceIdx_succ _ _ he, pySliceIdx_succ _ _ hs]
  rfl

theorem pySlice_cons_start_zero (x : α) (xs : List α) (e : ℤ) (he : 1 ≤ e) :
    pySlice (x :: xs) 0 e = x :: pySlice xs 0 (e - 1) := by
  unfold pySlice
  rw [List.length_cons, pySliceIdx_succ _ _ he]
  have h0 : pySliceIdx (xs.length + 1) 0 = 0 := by simp [pySliceIdx]
  have h1 : pySliceIdx xs.length 0 = 0 := by simp [pySliceIdx]
  rw [h0, h1]
  rfl

theorem pySlice_sum_eq_windowSum : ∀ (px : List ℚ) (s e : ℤ), 0 ≤ s → 0 ≤ e →
    (pySlice px s e).sum = windowSum px s e
  | [], s, e, _, _ => by rw [pySlice_nil, windowSum_nil]; rfl
  | x :: xs, s, e, hs, he => by
      rcases eq_or_lt_of_le he with he0 | he1
      · rw [← he0, pySlice_stop_zero, windowSum_stop_nonpos _ _ _ le_rfl]
        rfl
      · rcases eq_or_lt_of_le hs with hs0 | hs1
        · rw [← hs0, pySlice_cons_start_zero _ _ _ (by omega), List.sum_cons,
            pySlice_sum_eq_windowSum xs 0 (e - 1) le_rfl (by omega), windowSum_cons,
            if_pos ⟨le_rfl, by omega⟩, mul_one,
            windowSum_start_nonpos xs (0 - 1) 0 (e - 1) (by omega) le_rfl]
        · rw [pySlice_cons_succ _ _ _ _ (by omega) (by omega),
            pySlice_sum_eq_windowSum xs (s - 1) (e - 1) (by omega) (by omega),
            windowSum_cons, if_neg (by omega), mul_zero, zero_add]

/-! Characterisation of `extract_charge_from_peakpos_array`. -/

theorem length_ecStart (pp : List (List ℤ)) (shift : ℤ) :
    (ecStart pp shift).length = pp.length := by
  simp [ecStart]

theorem length_ecStop (pp : List (List ℤ)) (width shift : ℤ) :
    (ecStop pp width shift).length = pp.length := by
  simp [ecStop, ecStart]

theorem getD_ecStart (pp : List (List ℤ)) (shift : ℤ) (c : ℕ) (hc : c < pp.length) :
    (ecStart pp shift).getD c [] = (pp.getD c []).map (fun pk => pk - shift) :=
  getD_map_lt _ [] [] pp c hc

theorem getD_ecStop (pp : List (List ℤ)) (width shift : ℤ) (c : ℕ) (hc : c < pp.length) :
    (ecStop pp width shift).getD c []
      = ((pp.getD c []).map (fun pk => pk - shift)).map (fun s => s + width) := by
  unfold ecStop
  rw [getD_map_lt _ [] [] _ c (by rw [length_ecStart]; exact hc), getD_ecStart pp shift c hc]

theorem length_ecWindow (w : Cube) (pp : List (List ℤ)) (width shift : ℤ) :
    (ecWindow w pp width shift).length = min w.length pp.length := by
  simp [ecWindow, length_ecStart, length_ecStop, ecStop, ecStart]

theorem getD_ecWindow (w : Cube) (pp : List (List ℤ)) (width shift : ℤ) (c : ℕ)
    (hc : c < w.length) (hcp : c < pp.length) :
    (ecWindow w pp width shift).getD c []
      = ((w.getD c []).zip (((pp.getD c []).map (fun pk => pk - shift)).zip
          (((pp.getD c []).map (fun pk => pk - shift)).map (fun s => s + width)))).map
          (fun pse => windowMaskRow pse.2.1 pse.2.2 pse.1.length) := by
  unfold ecWindow
  rw [getD_map_lt _ [] ([], ([], [])) _ c
        (by rw [List.length_zip, List.length_zip, length_ecStart, length_ecStop]; omega),
      getD_zip_lt ([], ([], [])) _ _ c hc
        (by rw [List.length_zip, length_ecStart, length_ecStop]; omega),
      getD_zip_lt ([], []) _ _ c
        (by rw [length_ecStart]; omega) (by rw [length_ecStop]; omega),
      getD_ecStart pp shift c hcp, getD_ecStop pp width shift c hcp]

theorem mrow_extract (w : Cube) (pp : List (List ℤ)) (width shift : ℤ) (c p : ℕ)
    (hc : c < w.length) (hcp : c < pp.length)
    (hp : p < (w.getD c []).length) (hpp : p < (pp.getD c []).length) :
    mrow (extract_charge_from_peakpos_array w pp width shift).2 c p
      = windowMaskRow (atI2 pp c p - shift) (atI2 pp c p - shift + width)
          (row2 w c p).length := by
  unfold extract_charge_from_peakpos_array mrow
  rw [getD_ecWindow w pp width shift c hc hcp,
      getD_map_lt _ [] ([], (0, 0)) _ p
        (by simp only [List.length_zip, List.length_map]; omega),
      getD_zip_lt ([], (0, 0)) _ _ p hp
        (by simp only [List.length_zip, List.length_map]; omega),
      getD_zip_lt (0, 0) _ _ p
        (by simp only [List.length_map]; omega) (by simp only [List.length_map]; omega),
      getD_map_lt _ 0 0 _ p hpp,
      getD_map_lt _ 0 0 _ p (by simp only [List.length_map]; omega),
      getD_map_lt _ 0 0 _ p hpp]
  rfl

theorem extract_consistent (w : Cube) (pp : List (List ℤ)) (width shift : ℤ) (c p : ℕ) :
    at2 (extract_charge_from_peakpos_array w pp width shift).1 c p
      = maskedSum (row2 w c p)
          (mrow (extract_charge_from_peakpos_array w pp width shift).2 c p) := by
  unfold extract_charge_from_peakpos_array at2 mrow row2
  by_cases hc : c < w.length
  · by_cases hcp : c < pp.length
    · have hcW : c < (ecWindow w pp width shift).length := by
        rw [length_ecWindow]; omega
      have hzip : c < (w.zip (ecWindow w pp width shift)).length := by
        rw [List.length_zip]; omega
      rw [getD_map_lt _ [] ([], []) _ c hzip, getD_zip_lt ([], []) _ _ c hc hcW]
      dsimp only
      have hmc_le : ((ecWindow w pp width shift).getD c []).length
          ≤ (w.getD c []).length := by
        rw [getD_ecWindow w pp width shift c hc hcp, List.length_map, List.length_zip]
        omega
      by_cases hp : p < (w.getD c []).length
      · by_cases hpm : p < ((ecWindow w pp width shift).getD c []).length
        · rw [getD_map_lt _ 0 ([], []) _ p (by rw [List.length_zip]; omega),
            getD_zip_lt ([], []) _ _ p hp hpm]
        · rw [getD_len_le [] ((ecWindow w pp width shift).getD c []) p (by omega),
            maskedSum_nil_right,
            getD_len_le 0 ((w.getD c []).zip
              ((ecWindow w pp width shift).getD c []) |>.map
              (fun pm => maskedSum pm.1 pm.2)) p
              (by simp only [List.length_map, List.length_zip]; omega)]
      · rw [getD_len_le [] (w.getD c []) p (by omega), maskedSum_nil_left,
          getD_len_le 0 ((w.getD c []).zip
            ((ecWindow w pp width shift).getD c []) |>.map
            (fun pm => maskedSum pm.1 pm.2)) p
            (by simp only [List.length_map, List.length_zip]; omega)]
    · have hcW : (ecWindow w pp width shift).length ≤ c := by
        rw [length_ecWindow]; omega
      rw [getD_len_le [] (ecWindow w pp width shift) c hcW,
        getD_len_le [] ([] : List (List Bool)) p (Nat.zero_le p), maskedSum_nil_right,
        getD_len_le [] ((w.zip (ecWindow w pp width shift)).map
          (fun cm => (cm.1.zip cm.2).map (fun pm => maskedSum pm.1 pm.2))) c
          (by simp only [List.length_map, List.length_zip, length_ecWindow]; omega),
        getD_len_le 0 ([] : List ℚ) p (Nat.zero_le p)]
  · rw [getD_len_le [] w c (by omega), getD_len_le [] ([] : List (List ℚ)) p (Nat.zero_le p),
      maskedSum_nil_left,
      getD_len_le [] ((w.zip (ecWindow w pp width shift)).map
        (fun cm => (cm.1.zip cm.2).map (fun pm => maskedSum pm.1 pm.2))) c
        (by simp only [List.length_map, List.length_zip]; omega),
      getD_len_le 0 ([] : List ℚ) p (Nat.zero_le p)]

theorem mrow_extract_cases (w : Cube) (pp : List (List ℤ)) (width shift : ℤ) (c p : ℕ) :
    mrow (extract_charge_from_peakpos_array w pp width shift).2 c p = []
      ∨ ∃ s n, mrow (extract_charge_from_peakpos_array w pp width shift).2 c p
          = windowMaskRow s (s + width) n := by
  by_cases hc : c < w.length
  · by_cases hcp : c < pp.length
    · by_cases hp : p < (w.getD c []).length
      · by_cases hpp : p < (pp.getD c []).length
        · exact Or.inr ⟨atI2 pp c p - shift, (row2 w c p).length,
            mrow_extract w pp width shift c p hc hcp hp hpp⟩
        · left
          unfold extract_charge_from_peakpos_array mrow
          rw [getD_ecWindow w pp width shift c hc hcp]
          exact getD_len_le [] _ p
            (by rw [List.length_map, List.length_zip, List.length_zip,
                List.length_map, List.length_map]; omega)
      · left
        unfold extract_charge_from_peakpos_array mrow
        rw [getD_ecWindow w pp width shift c hc hcp]
        exact getD_len_le [] _ p (by rw [List.length_map, List.length_zip]; omega)
    · left
      unfold extract_charge_from_peakpos_array mrow
      rw [getD_len_le [] _ c (by rw [length_ecWindow]; omega)]
      exact getD_len_le [] ([] : List (List Bool)) p (Nat.zero_le p)
  · left
    unfold extract_charge_from_peakpos_array mrow
    rw [getD_len_le [] _ c (by rw [length_ecWindow]; omega)]
    exact getD_len_le [] ([] : List (List Bool)) p (Nat.zero_le p)

/-! Characterisation of the neighbour-averaging kernel. -/

/-- Projection of `navStep` to one channel of the accumulator `sum_`. -/
def navStepChan (wc : List (List ℚ)) (rows : List (List ℚ)) (e : ℕ × ℕ) : List (List ℚ) :=
  modIdx rows e.1 (fun row => addRow row (wc.getD e.2 []))

/-- Projection of `navStep` to one channel of the counter `n`. -/
def navStepCount (rows : List (List ℚ)) (e : ℕ × ℕ) : List (List ℚ) :=
  modIdx rows e.1 (fun row => row.map (· + 1))

theorem nav_fold_S_length (w : Cube) : ∀ (es : List (ℕ × ℕ)) (st : Cube × Cube),
    st.1.length = w.length → (es.foldl (navStep w) st).1.length = w.length
  | [], _, h => h
  | e :: es, st, h => by
      rw [List.foldl_cons]
      exact nav_fold_S_length w es (navStep w st e)
        (by simp [navStep, List.length_zip, h])

theorem nav_fold_N_length (w : Cube) : ∀ (es : List (ℕ × ℕ)) (st : Cube × Cube),
    (es.foldl (navStep w) st).2.length = st.2.length
  | [], _ => rfl
  | e :: es, st => by
      rw [List.foldl_cons, nav_fold_N_length w es (navStep w st e)]
      simp [navStep]

theorem nav_fold_S_chan (w : Cube) (c : ℕ) (hc : c < w.length) :
    ∀ (es : List (ℕ × ℕ)) (st : Cube × Cube), st.1.length = w.length →
    ((es.foldl (navStep w) st).1).getD c []
      = es.foldl (navStepChan (w.getD c [])) (st.1.getD c [])
  | [], _, _ => rfl
  | e :: es, st, h => by
      rw [List.foldl_cons, List.foldl_cons,
        nav_fold_S_chan w c hc es (navStep w st e) (by simp [navStep, List.length_zip, h])]
      congr 1
      show ((st.1.zip w).map
        (fun cw => modIdx cw.1 e.1 (fun row => addRow row (cw.2.getD e.2 [])))).getD c [] = _
      rw [getD_map_lt _ [] ([], []) _ c (by rw [List.length_zip]; omega),
        getD_zip_lt ([], []) _ _ c (by omega) hc]
      rfl

theorem nav_fold_N_chan (w : Cube) (c : ℕ) :
    ∀ (es : List (ℕ × ℕ)) (st : Cube × Cube), c < st.2.length →
    ((es.foldl (navStep w) st).2).getD c []
      = es.foldl navStepCount (st.2.getD c [])
  | [], _, _ => rfl
  | e :: es, st, hc => by
      rw [List.foldl_cons, List.foldl_cons,
        nav_fold_N_chan w c es (navStep w st e) (by simpa [navStep] using hc)]
      congr 1
      show (st.2.map (fun nc => modIdx nc e.1 (fun row => row.map (· + 1)))).getD c [] = _
      rw [getD_map_lt _ [] [] _ c hc]
      rfl

theorem length_navStepChan (wc : List (List ℚ)) (rows : List (List ℚ)) (e : ℕ × ℕ) :
    (navStepChan wc rows e).length = rows.length :=
  length_modIdx _ _ _

theorem length_navStepCount (rows : List (List ℚ)) (e : ℕ × ℕ) :
    (navStepCount rows e).length = rows.length :=
  length_modIdx _ _ _

theorem navChan_fold_pix (wc : List (List ℚ)) (p : ℕ) :
    ∀ (es : List (ℕ × ℕ)) (rows : List (List ℚ)), p < rows.length →
    (es.foldl (navStepChan wc) rows).getD p []
      = es.foldl (fun row e => if e.1 = p then addRow row (wc.getD e.2 []) else row)
          (rows.getD p [])
  | [], _, _ => rfl
  | e :: es, rows, hp => by
      rw [List.foldl_cons, List.foldl_cons,
        navChan_fold_pix wc p es _ (by rw [length_navStepChan]; exact hp)]
      congr 1
      rw [navStepChan, getD_modIdx]
      by_cases hep : e.1 = p
      · subst hep
        rw [if_pos ⟨rfl, hp⟩, if_pos rfl]
      · rw [if_neg (fun h => hep h.1.symm), if_neg hep]

theorem navCount_fold_pix (p : ℕ) :
    ∀ (es : List (ℕ × ℕ)) (rows : List (List ℚ)), p < rows.length →
    (es.foldl navStepCount rows).getD p []
      = es.foldl (fun row e => if e.1 = p then row.map (· + 1) else row) (rows.getD p [])
  | [], _, _ => rfl
  | e :: es, rows, hp => by
      rw [List.foldl_cons, List.foldl_cons,
        navCount_fold_pix p es _ (by rw [length_navStepCount]; exact hp)]
      congr 1
      rw [navStepCount, getD_modIdx]
      by_cases hep : e.1 = p
      · subst hep
        rw [if_pos ⟨rfl, hp⟩, if_pos rfl]
      · rw [if_neg (fun h => hep h.1.symm), if_neg hep]

theorem navRow_fold_getD (wc : List (List ℚ)) (p t : ℕ) :
    ∀ (es : List (ℕ × ℕ)) (row : List ℚ), t < row.length →
    (es.foldl (fun row e => if e.1 = p then addRow row (wc.getD e.2 []) else row) row).getD t 0
      = row.getD t 0 + ((es.filter (fun e => decide (e.1 = p))).map
          (fun e => (wc.getD e.2 []).getD t 0)).sum
  | [], _, _ => by simp
  | e :: es, row, ht => by
      rw [List.foldl_cons]
      by_cases hep : e.1 = p
      · rw [if_pos hep, navRow_fold_getD wc p t es _ (by rw [length_addRow]; exact ht),
          getD_addRow _ _ t ht, List.filter_cons_of_pos (by simpa using hep), List.map_cons,
          List.sum_cons]
        ring
      · rw [if_neg hep, navRow_fold_getD wc p t es row ht,
          List.filter_cons_of_neg (by simpa using hep)]

theorem navCountRow_fold_getD (p t : ℕ) :
    ∀ (es : List (ℕ × ℕ)) (row : List ℚ), t < row.length →
    (es.foldl (fun row e => if e.1 = p then row.map (· + 1) else row) row).getD t 0
      = row.getD t 0 + (es.countP (fun e => decide (e.1 = p)) : ℚ)
  | [], _, _ => by simp
  | e :: es, row, ht => by
      rw [List.foldl_cons]
      by_cases hep : e.1 = p
      · rw [if_pos hep, navCountRow_fold_getD p t es _ (by rw [List.length_map]; exact ht),
          getD_map_lt _ 0 0 row t ht, List.countP_cons_of_pos _ _ (by simpa using hep)]
        push_cast
        ring
      · rw [if_neg hep, navCountRow_fold_getD p t es row ht,
          List.countP_cons_of_neg _ _ (by simpa using hep)]

theorem navRow_fold_length (wc : List (List ℚ)) (p : ℕ) (es : List (ℕ × ℕ)) (row : List ℚ) :
    (es.foldl (fun row e => if e.1 = p then addRow row (wc.getD e.2 []) else row) row).length
      = row.length := by
  apply foldl_length_inv
  intro acc e
  by_cases hep : e.1 = p
  · rw [if_pos hep, length_addRow]
  · rw [if_neg hep]

theorem navCountRow_fold_length (p : ℕ) (es : List (ℕ × ℕ)) (row : List ℚ) :
    (es.foldl (fun row e => if e.1 = p then row.map (· + 1) else row) row).length
      = row.length := by
  apply foldl_length_inv
  intro acc e
  by_cases hep : e.1 = p
  · rw [if_pos hep, List.length_map]
  · rw [if_neg hep]

theorem navChan_fold_length (wc : List (List ℚ)) (es : List (ℕ × ℕ)) (rows : List (List ℚ)) :
    (es.foldl (navStepChan wc) rows).length = rows.length :=
  foldl_length_inv _ (fun acc e => length_navStepChan wc acc e) es rows

theorem navCount_fold_length (es : List (ℕ × ℕ)) (rows : List (List ℚ)) :
    (es.foldl navStepCount rows).length = rows.length :=
  foldl_length_inv _ (fun acc e => length_navStepCount acc e) es rows

theorem navInit_S_length (w : Cube) (lwt : ℤ) : (navInit w lwt).1.length = w.length := by
  simp [navInit]

theorem navInit_N_length (w : Cube) (lwt : ℤ) : (navInit w lwt).2.length = w.length := by
  simp [navInit]

theorem navInit_S_getD (w : Cube) (lwt : ℤ) (c : ℕ) (hc : c < w.length) :
    (navInit w lwt).1.getD c []
      = (w.getD c []).map (fun px => px.map (fun x => x * (lwt : ℚ))) :=
  getD_map_lt _ [] [] w c hc

theorem navInit_N_getD (w : Cube) (lwt : ℤ) (c : ℕ) (hc : c < w.length) :
    (navInit w lwt).2.getD c []
      = (w.getD c []).map (fun px => px.map (fun _ => (0 : ℚ))) :=
  getD_map_lt _ [] [] w c hc

theorem nav_S_chan_length (w : Cube) (ns : List (ℕ × ℕ)) (lwt : ℤ) (c : ℕ)
    (hc : c < w.length) :
    ((ns.foldl (navStep w) (navInit w lwt)).1.getD c []).length = (w.getD c []).length := by
  rw [nav_fold_S_chan w c hc ns _ (navInit_S_length w lwt), navChan_fold_length,
    navInit_S_getD w lwt c hc, List.length_map]

theorem nav_N_chan_length (w : Cube) (ns : List (ℕ × ℕ)) (lwt : ℤ) (c : ℕ)
    (hc : c < w.length) :
    ((ns.foldl (navStep w) (navInit w lwt)).2.getD c []).length = (w.getD c []).length := by
  rw [nav_fold_N_chan w c ns _ (by rw [navInit_N_length]; exact hc), navCount_fold_length,
    navInit_N_getD w lwt c hc, List.length_map]

theorem nav_S_row (w : Cube) (ns : List (ℕ × ℕ)) (lwt : ℤ) (c p : ℕ)
    (hc : c < w.length) (hp : p < (w.getD c []).length) :
    ((ns.foldl (navStep w) (navInit w lwt)).1.getD c []).getD p []
      = ns.foldl
          (fun row e => if e.1 = p then addRow row ((w.getD c []).getD e.2 []) else row)
          ((row2 w c p).map (fun x => x * (lwt : ℚ))) := by
  rw [nav_fold_S_chan w c hc ns _ (navInit_S_length w lwt),
    navChan_fold_pix _ p ns _ (by rw [navInit_S_getD w lwt c hc, List.length_map]; exact hp),
    navInit_S_getD w lwt c hc, getD_map_lt _ [] [] _ p hp]
  rfl

theorem nav_N_row (w : Cube) (ns : List (ℕ × ℕ)) (lwt : ℤ) (c p : ℕ)
    (hc : c < w.length) (hp : p < (w.getD c []).length) :
    ((ns.foldl (navStep w) (navInit w lwt)).2.getD c []).getD p []
      = ns.foldl (fun row e => if e.1 = p then row.map (· + 1) else row)
          ((row2 w c p).map (fun _ => (0 : ℚ))) := by
  rw [nav_fold_N_chan w c ns _ (by rw [navInit_N_length]; exact hc),
    navCount_fold_pix p ns _ (by rw [navInit_N_getD w lwt c hc, List.length_map]; exact hp),
    navInit_N_getD w lwt c hc, getD_map_lt _ [] [] _ p hp]
  rfl

theorem nav_S_row_length (w : Cube) (ns : List (ℕ × ℕ)) (lwt : ℤ) (c p : ℕ)
    (hc : c < w.length) (hp : p < (w.getD c []).length) :
    (((ns.foldl (navStep w) (navInit w lwt)).1.getD c []).getD p []).length
      = (row2 w c p).length := by
  rw [nav_S_row w ns lwt c p hc hp, navRow_fold_length, List.length_map]

theorem nav_N_row_length (w : Cube) (ns : List (ℕ × ℕ)) (lwt : ℤ) (c p : ℕ)
    (hc : c < w.length) (hp : p < (w.getD c []).length) :
    (((ns.foldl (navStep w) (navInit w lwt)).2.getD c []).getD p []).length
      = (row2 w c p).length := by
  rw [nav_N_row w ns lwt c p hc hp, navCountRow_fold_length, List.length_map]

theorem nav_at3 (w : Cube) (ns : List (ℕ × ℕ)) (lwt : ℤ) (c p t : ℕ)
    (hc : c < w.length) (hp : p < (w.getD c []).length) (ht : t < (row2 w c p).length) :
    at3 (neighbor_average_waveform w ns lwt) c p t
      = (at3 w c p t * (lwt : ℚ)
          + ((ns.filter (fun e => decide (e.1 = p))).map (fun e => at3 w c e.2 t)).sum)
        / (ns.countP (fun e => decide (e.1 = p)) : ℚ) := by
  have hSlen : (ns.foldl (navStep w) (navInit w lwt)).1.length = w.length :=
    nav_fold_S_length w ns _ (navInit_S_length w lwt)
  have hNlen : (ns.foldl (navStep w) (navInit w lwt)).2.length = w.length := by
    rw [nav_fold_N_length w ns _, navInit_N_length]
  unfold neighbor_average_waveform at3 row2
  rw [getD_map_lt _ [] ([], []) _ c (by rw [List.length_zip, hSlen, hNlen]; omega),
    getD_zip_lt ([], []) _ _ c (by rw [hSlen]; exact hc) (by rw [hNlen]; exact hc)]
  dsimp only
  rw [getD_map_lt _ [] ([], []) _ p
      (by rw [List.length_zip, nav_S_chan_length w ns lwt c hc,
          nav_N_chan_length w ns lwt c hc]; omega),
    getD_zip_lt ([], []) _ _ p
      (by rw [nav_S_chan_length w ns lwt c hc]; exact hp)
      (by rw [nav_N_chan_length w ns lwt c hc]; exact hp)]
  dsimp only
  rw [getD_zipWith_lt _ 0 0 0 _ _ t
      (by rw [nav_S_row_length w ns lwt c p hc hp]; exact ht)
      (by rw [nav_N_row_length w ns lwt c p hc hp]; exact ht),
    nav_S_row w ns lwt c p hc hp, nav_N_row w ns lwt c p hc hp,
    navRow_fold_getD _ p t ns _ (by rw [List.length_map]; exact ht),
    navCountRow_fold_getD p t ns _ (by rw [List.length_map]; exact ht),
    getD_map_lt _ 0 0 _ t ht, getD_map_lt _ 0 0 _ t ht, zero_add]
  rfl

theorem nav_length (w : Cube) (ns : List (ℕ × ℕ)) (lwt : ℤ) :
    (neighbor_average_waveform w ns lwt).length = w.length := by
  unfold neighbor_average_waveform
  rw [List.length_map, List.length_zip, nav_fold_S_length w ns _ (navInit_S_length w lwt),
    nav_fold_N_length w ns _, navInit_N_length, min_self]

theorem nav_chan (w : Cube) (ns : List (ℕ × ℕ)) (lwt : ℤ) (c : ℕ) (hc : c < w.length) :
    (neighbor_average_waveform w ns lwt).getD c []
      = (((ns.foldl (navStep w) (navInit w lwt)).1.getD c []).zip
          ((ns.foldl (navStep w) (navInit w lwt)).2.getD c [])).map
          (fun pn => List.zipWith (· / ·) pn.1 pn.2) := by
  have hSlen : (ns.foldl (navStep w) (navInit w lwt)).1.length = w.length :=
    nav_fold_S_length w ns _ (navInit_S_length w lwt)
  have hNlen : (ns.foldl (navStep w) (navInit w lwt)).2.length = w.length := by
    rw [nav_fold_N_length w ns _, navInit_N_length]
  unfold neighbor_average_waveform
  rw [getD_map_lt _ [] ([], []) _ c (by rw [List.length_zip, hSlen, hNlen]; omega),
    getD_zip_lt ([], []) _ _ c (by rw [hSlen]; exact hc) (by rw [hNlen]; exact hc)]

theorem nav_chan_length (w : Cube) (ns : List (ℕ × ℕ)) (lwt : ℤ) (c : ℕ)
    (hc : c < w.length) :
    ((neighbor_average_waveform w ns lwt).getD c []).length = (w.getD c []).length := by
  rw [nav_chan w ns lwt c hc, List.length_map, List.length_zip,
    nav_S_chan_length w ns lwt c hc, nav_N_chan_length w ns lwt c hc, min_self]

theorem nav_row_length (w : Cube) (ns : List (ℕ × ℕ)) (lwt : ℤ) (c p : ℕ)
    (hc : c < w.length) (hp : p < (w.getD c []).length) :
    (((neighbor_average_waveform w ns lwt).getD c []).getD p []).length
      = (row2 w c p).length := by
  rw [nav_chan w ns lwt c hc,
    getD_map_lt _ [] ([], []) _ p
      (by rw [List.length_zip, nav_S_chan_length w ns lwt c hc,
          nav_N_chan_length w ns lwt c hc]; omega),
    getD_zip_lt ([], []) _ _ p
      (by rw [nav_S_chan_length w ns lwt c hc]; exact hp)
      (by rw [nav_N_chan_length w ns lwt c hc]; exact hp)]
  dsimp only
  rw [List.length_zipWith, nav_S_row_length w ns lwt c p hc hp,
    nav_N_row_length w ns lwt c p hc hp, min_self]

theorem shape3_nav (w : Cube) (ns : List (ℕ × ℕ)) (lwt : ℤ) :
    shape3 (neighbor_average_waveform w ns lwt) = shape3 w := by
  unfold shape3
  apply ext_getD ([] : List ℕ)
  · rw [List.length_map, List.length_map, nav_length]
  · intro c hcl
    have hc : c < w.length := by
      rw [List.length_map, nav_length] at hcl
      exact hcl
    rw [getD_map_lt _ [] [] _ c (by rw [nav_length]; exact hc),
      getD_map_lt _ [] [] w c hc]
    apply ext_getD (0 : ℕ)
    · rw [List.length_map, List.length_map, nav_chan_length w ns lwt c hc]
    · intro p hpl
      have hp : p < (w.getD c []).length := by
        rw [List.length_map, nav_chan_length w ns lwt c hc] at hpl
        exact hpl
      rw [getD_map_lt _ 0 [] _ p (by rw [nav_chan_length w ns lwt c hc]; exact hp),
        getD_map_lt _ 0 [] _ p hp, nav_row_length w ns lwt c p hc hp]
      rfl

/-! Arithmetic and shape helper lemmas for the peak-position strategies. -/

theorem roundHalfEven_intCast (a : ℤ) : roundHalfEven ((a : ℤ) : ℚ) = a := by
  unfold roundHalfEven
  rw [Int.floor_intCast]
  norm_num

theorem zipWith_mul_map_map (ch : List (List ℚ)) (f g : List ℚ → ℚ) :
    List.zipWith (· * ·) (ch.map f) (ch.map g) = ch.map (fun px => f px * g px) := by
  induction ch with
  | nil => rfl
  | cons px rest ih => simp [ih]

theorem npAverage_map_map (ch : List (List ℚ)) (f g : List ℚ → ℚ) :
    npAverage (ch.map f) (ch.map g)
      = (ch.map (fun px => f px * g px)).sum / (ch.map g).sum := by
  unfold npAverage
  rw [zipWith_mul_map_map]

theorem zipWith_mul_replicate (P : ℕ) (a m : ℚ) :
    List.zipWith (· * ·) (List.replicate P a) (List.replicate P m)
      = List.replicate P (a * m) := by
  induction P with
  | zero => rfl
  | succ n ih => simp [List.replicate_succ, ih]

theorem npAverage_replicate (P : ℕ) (a m : ℚ) (hP : P ≠ 0) (hm : m ≠ 0) :
    npAverage (List.replicate P a) (List.replicate P m) = a := by
  unfold npAverage
  rw [zipWith_mul_replicate, List.sum_replicate, List.sum_replicate, nsmul_eq_mul,
    nsmul_eq_mul]
  have hPQ : (P : ℚ) ≠ 0 := Nat.cast_ne_zero.mpr hP
  field_simp
  ring

theorem getD_range_map : ∀ (l : List ℚ),
    (List.range l.length).map (fun t => l.getD t 0) = l
  | [] => rfl
  | x :: xs => by
      rw [List.length_cons, List.range_succ_eq_map, List.map_cons, List.map_map]
      have h : ∀ t ∈ List.range xs.length,
          ((fun t => (x :: xs).getD t 0) ∘ Nat.succ) t = (fun t => xs.getD t 0) t := by
        intro t _
        simp
      rw [List.map_congr_left h, getD_range_map xs]
      simp

theorem meanRow_replicate (P : ℕ) (w0 : List ℚ) (hP : P ≠ 0) :
    meanRow (List.replicate P w0) = w0 := by
  unfold meanRow
  have h1 : (List.replicate P w0).headD [] = w0 := by
    cases P with
    | zero => exact absurd rfl hP
    | succ n => rfl
  rw [h1]
  have h2 : ∀ t ∈ List.range w0.length,
      (fun t => ((List.replicate P w0).map (fun px => px.getD t 0)).sum
        / ((List.replicate P w0).length : ℚ)) t
        = (fun t => w0.getD t 0) t := by
    intro t _
    simp only [List.map_replicate, List.sum_replicate, List.length_replicate, nsmul_eq_mul]
    exact mul_div_cancel_left₀ _ (Nat.cast_ne_zero.mpr hP)
  rw [List.map_congr_left h2, getD_range_map]

theorem getD_mem (d : α) : ∀ (l : List α) (i : ℕ), i < l.length → l.getD i d ∈ l
  | [], i, h => absurd h (Nat.not_lt_zero i)
  | x :: xs, 0, _ => List.mem_cons_self x xs
  | x :: xs, i + 1, h =>
      List.mem_cons_of_mem x (getD_mem d xs i (Nat.lt_of_succ_lt_succ h))

theorem globalPeakPeakpos_getD (w : Cube) (c : ℕ) (hc : c < w.length) :
    (globalPeakPeakpos w).getD c 0
      = roundHalfEven (npAverage ((w.getD c []).map (fun px => (argmax px : ℚ)))
          ((w.getD c []).map maxVal)) :=
  getD_map_lt _ 0 [] w c hc

theorem avgWfPeakpos_getD (w : Cube) (c : ℕ) (hc : c < w.length) :
    (avgWfPeakpos w).getD c 0 = ((argmax (meanRow (w.getD c [])) : ℕ) : ℤ) :=
  getD_map_lt _ 0 [] w c hc

theorem length_globalPeakPeakpos (w : Cube) : (globalPeakPeakpos w).length = w.length := by
  simp [globalPeakPeakpos]

theorem length_avgWfPeakpos (w : Cube) : (avgWfPeakpos w).length = w.length := by
  simp [avgWfPeakpos]

theorem stackedExtract_none_iff (pp : List ℤ) (width shift : ℤ) (w : Cube) :
    stackedExtract pp width shift w = none ↔ w.length < 2 := by
  unfold stackedExtract
  match w with
  | [] => simp
  | [ch0] => simp
  | ch0 :: ch1 :: rest => simp

theorem stackedExtract_charge_length (pp : List ℤ) (width shift : ℤ) (w : Cube) :
    ((stackedExtract pp width shift w).getD ([], [], [])).1.length
      = if 2 ≤ w.length then 2 else 0 := by
  unfold stackedExtract
  match w with
  | [] => simp
  | [ch0] => simp
  | ch0 :: ch1 :: rest => simp

theorem stackedExtract_peakpos (pp : List ℤ) (width shift : ℤ) (w : Cube)
    (h : 2 ≤ w.length) :
    ((stackedExtract pp width shift w).getD ([], [], [])).2.1 = pp := by
  unfold stackedExtract
  match w, h with
  | ch0 :: ch1 :: rest, _ => simp

theorem dim2_map_map {β : Type _} (w : Cube) (f : List ℚ → β) :
    dim2 (w.map (fun ch => ch.map f)) = pixDims w := by
  unfold dim2 pixDims
  rw [Prod.mk.injEq]
  constructor
  · rw [List.length_map]
  · rw [List.map_map]
    apply List.map_congr_left
    intro ch _
    simp

theorem pixDims_eq_of_shape3 (x y : Cube) (h : shape3 x = shape3 y) :
    pixDims x = pixDims y := by
  unfold pixDims
  have hlen : x.length = y.length := by
    have hl := congrArg List.length h
    simpa [shape3] using hl
  rw [Prod.mk.injEq]
  refine ⟨hlen, ?_⟩
  have hm := congrArg (List.map List.length) h
  simpa [shape3, List.map_map, Function.comp_def] using hm

theorem dim2_extract_charge (w : Cube) (pp : List (List ℤ)) (width shift : ℤ)
    (hlen : pp.length = w.length)
    (hrows : ∀ c, c < w.length → (pp.getD c []).length = (w.getD c []).length) :
    dim2 (extract_charge_from_peakpos_array w pp width shift).1 = pixDims w := by
  unfold extract_charge_from_peakpos_array dim2 pixDims
  rw [Prod.mk.injEq]
  constructor
  · rw [List.length_map, List.length_zip, length_ecWindow, hlen]
    omega
  · apply ext_getD (0 : ℕ)
    · rw [List.length_map, List.length_map, List.length_map, List.length_zip,
        length_ecWindow, hlen]
      omega
    · intro c hcl
      have hc : c < w.length := by
        rw [List.length_map, List.length_map, List.length_zip, length_ecWindow, hlen,
          min_self, min_self] at hcl
        exact hcl
      have hcp : c < pp.length := by omega
      have hzip : c < (w.zip (ecWindow w pp width shift)).length := by
        rw [List.length_zip, length_ecWindow, hlen]
        omega
      rw [getD_map_lt _ 0 [] _ c (by rw [List.length_map]; exact hzip),
        getD_map_lt _ [] ([], []) _ c hzip,
        getD_zip_lt ([], []) _ _ c hc (by rw [length_ecWindow, hlen]; omega),
        getD_map_lt _ 0 [] w c hc]
      dsimp only
      rw [List.length_map, List.length_zip, getD_ecWindow w pp width shift c hc hcp]
      simp only [List.length_map, List.length_zip]
      rw [hrows c hc]
      omega

/-! Claim theorems. -/

/-- C1: the claim states that for every waveform cube and every strategy the
returned charge equals the mask-weighted sample sum.  This evaluation shows
the code violating it: SimpleIntegrator with its default window
(window_start 0, window_width 7) on a one-channel, one-pixel cube of eight
unit samples returns charge 7 (the sum over the seven-sample window) while
the returned window mask is all-True, so the mask-weighted sum is 8. -/
theorem C1_simple_mask_vs_charge :
    at2 (SimpleIntegrator.extract_charge 0 7 [[[(1:ℚ),1,1,1,1,1,1,1]]]).1 0 0 = 7 ∧
    maskedSum (row2 [[[(1:ℚ),1,1,1,1,1,1,1]]] 0 0)
      (mrow (SimpleIntegrator.extract_charge 0 7 [[[(1:ℚ),1,1,1,1,1,1,1]]]).2.2 0 0) = 8 := by
  constructor
  · have h : at2 (SimpleIntegrator.extract_charge 0 7 [[[(1:ℚ),1,1,1,1,1,1,1]]]).1 0 0
        = ([1,1,1,1,1,1,1] : List ℚ).sum := rfl
    rw [h]
    norm_num
  · have h : maskedSum (row2 [[[(1:ℚ),1,1,1,1,1,1,1]]] 0 0)
        (mrow (SimpleIntegrator.extract_charge 0 7 [[[(1:ℚ),1,1,1,1,1,1,1]]]).2.2 0 0)
        = ([(1:ℚ)*1,1*1,1*1,1*1,1*1,1*1,1*1,1*1]).sum := rfl
    rw [h]
    norm_num

/-- C2: neighbor_average_waveform returns a cube of the shape of its input
in which entry (c, p, t) is the local-weighted sample plus the sum of the
samples of the neighbours named by the edges with first component p, divided
by the number of such edges; the local weight enters the accumulator but not
the count. -/
theorem C2_neighbor_average_formula (w : Cube) (edges : List (ℕ × ℕ)) (lwt : ℤ)
    (C P S : ℕ) (hshape : CubeShape w C P S)
    (hedges : ∀ e ∈ edges, e.1 < P ∧ e.2 < P)
    (c p t : ℕ) (hc : c < C) (hp : p < P) (ht : t < S) :
    shape3 (neighbor_average_waveform w edges lwt) = shape3 w ∧
    at3 (neighbor_average_waveform w edges lwt) c p t
      = ((lwt : ℚ) * at3 w c p t
          + ((edges.filter (fun e => decide (e.1 = p))).map (fun e => at3 w c e.2 t)).sum)
        / (edges.countP (fun e => decide (e.1 = p)) : ℚ) := by
  obtain ⟨hlen, hch⟩ := hshape
  have hc' : c < w.length := by rw [hlen]; exact hc
  have hchan := hch (w.getD c []) (getD_mem [] w c hc')
  have hp' : p < (w.getD c []).length := by rw [hchan.1]; exact hp
  have hrow := hchan.2 ((w.getD c []).getD p []) (getD_mem [] _ p hp')
  have ht' : t < (row2 w c p).length := by
    rw [show (row2 w c p).length = S from hrow]
    exact ht
  refine ⟨shape3_nav w edges lwt, ?_⟩
  rw [nav_at3 w edges lwt c p t hc' hp' ht', mul_comm (at3 w c p t) ((lwt : ℤ) : ℚ)]

/-- C2 witness: the formula at a concrete one-channel, two-pixel,
one-sample cube with the single edge (0, 1) and local weight 3. -/
theorem C2_witness :
    CubeShape [[[(1:ℚ)], [2]]] 1 2 1 ∧
    (∀ e ∈ ([(0, 1)] : List (ℕ × ℕ)), e.1 < 2 ∧ e.2 < 2) ∧
    at3 (neighbor_average_waveform [[[(1:ℚ)], [2]]] [(0, 1)] 3) 0 0 0
      = (((3 : ℤ) : ℚ) * at3 [[[(1:ℚ)], [2]]] 0 0 0
          + ((([(0, 1)] : List (ℕ × ℕ)).filter (fun e => decide (e.1 = 0))).map
              (fun e => at3 [[[(1:ℚ)], [2]]] 0 e.2 0)).sum)
        / (([(0, 1)] : List (ℕ × ℕ)).countP (fun e => decide (e.1 = 0)) : ℚ) :=
  ⟨by decide, by decide,
    (C2_neighbor_average_formula [[[(1:ℚ)], [2]]] [(0, 1)] 3 1 2 1 (by decide) (by decide)
      0 0 0 (by decide) (by decide) (by decide)).2⟩

/-- C3 (amended): neighbor_average_waveform performs no bounds validation:
for every edge list, including lists with indices outside [0, n_pixels), it
raises no error and silently returns a cube of the shape of its input (in
the embedding an out-of-range read contributes the default 0 and an
out-of-range write is dropped); no InvalidTopology failure exists in the
code. -/
theorem C3_no_bounds_check (w : Cube) (edges : List (ℕ × ℕ)) (lwt : ℤ) :
    shape3 (neighbor_average_waveform w edges lwt) = shape3 w :=
  shape3_nav w edges lwt

/-- C3 counterexample: on a cube with two pixels, the edge list
[(0, 5), (1, 0)] references the out-of-range neighbour index 5, yet the
kernel completes normally and returns an ordinary cube instead of failing
with InvalidTopology. -/
theorem C3_counterexample :
    neighbor_average_waveform [[[(1:ℚ)], [2]]] [(0, 5), (1, 0)] 1 = [[[1], [3]]] := by
  norm_num [neighbor_average_waveform, navInit, navStep, modIdx, addRow]

/-- C4 (amended): invoking NeighbourPeakIntegrator.extract_charge in the
unconfigured state fails, but with the kernel rejecting the absent
neighbours array (numba TypeError), not with the MissingTopology check:
extract_charge never calls check_neighbour_set.  check_neighbour_set itself
raises MissingTopology exactly for the strategy that requires neighbours,
and passes for every strategy once neighbours are supplied; the other
strategies take no topology at all. -/
theorem C4_missing_topology_amended (w : Cube) (ww sh lwt : ℤ) (s : Strategy)
    (ns : List (ℕ × ℕ)) :
    NeighbourPeakIntegrator.extract_charge ww sh lwt none w = .error .badKernelArg ∧
    check_neighbour_set s none
      = (if s = .neighbourPeak then .error .missingTopology else .ok ()) ∧
    check_neighbour_set s (some ns) = .ok () := by
  refine ⟨rfl, ?_, ?_⟩
  · cases s <;> rfl
  · cases s <;> rfl

/-- C4 counterexample: the unconfigured NeighbourPeakIntegrator call fails
with the kernel argument error, not with the MissingTopology error the
claim states. -/
theorem C4_counterexample :
    NeighbourPeakIntegrator.extract_charge 7 3 0 none [[[(1:ℚ)]]]
        = .error .badKernelArg ∧
    NeighbourPeakIntegrator.extract_charge 7 3 0 none [[[(1:ℚ)]]]
        ≠ .error .missingTopology :=
  ⟨rfl, by simp [NeighbourPeakIntegrator.extract_charge]⟩

/-- C5: the claim states that out-of-range windows are excluded by the mask
for every strategy with no wrapping.  This evaluation shows the code
violating it: GlobalPeakIntegrator with window_width 7 and window_shift 8 on
a cube whose per-channel peak position is 0 computes the window [-8, -1);
Python negative-index slicing wraps both bounds, so the returned charge sums
samples 2..8 (charge 7) although the window contains no valid sample index:
the excluded-sample sum is 0 and the window mask returned by the same call
is all-False. -/
theorem C5_global_window_wraps :
    at2 ((GlobalPeakIntegrator.extract_charge 7 8
        [[[(5:ℚ),0,1,1,1,1,1,1,1,0]], [[(5:ℚ),0,1,1,1,1,1,1,1,0]]]).getD
        ([], [], [])).1 0 0 = 7 ∧
    windowSum (row2 [[[(5:ℚ),0,1,1,1,1,1,1,1,0]], [[(5:ℚ),0,1,1,1,1,1,1,1,0]]] 0 0)
        (-8) (-1) = 0 ∧
    (∀ b ∈ mrow ((GlobalPeakIntegrator.extract_charge 7 8
        [[[(5:ℚ),0,1,1,1,1,1,1,1,0]], [[(5:ℚ),0,1,1,1,1,1,1,1,0]]]).getD
        ([], [], [])).2.2 0 0, b = false) := by
  have hpp : globalPeakPeakpos [[[(5:ℚ),0,1,1,1,1,1,1,1,0]], [[(5:ℚ),0,1,1,1,1,1,1,1,0]]]
      = [0, 0] := by
    norm_num [globalPeakPeakpos, npAverage, argmax, argmaxAux, maxVal, max_def,
      roundHalfEven]
  have hg : GlobalPeakIntegrator.extract_charge 7 8
      [[[(5:ℚ),0,1,1,1,1,1,1,1,0]], [[(5:ℚ),0,1,1,1,1,1,1,1,0]]]
      = stackedExtract [0, 0] 7 8
        [[[(5:ℚ),0,1,1,1,1,1,1,1,0]], [[(5:ℚ),0,1,1,1,1,1,1,1,0]]] := by
    show stackedExtract (globalPeakPeakpos _) 7 8 _ = _
    rw [hpp]
  refine ⟨?_, ?_, ?_⟩
  · rw [hg]
    have h : at2 ((stackedExtract [0, 0] 7 8
        [[[(5:ℚ),0,1,1,1,1,1,1,1,0]], [[(5:ℚ),0,1,1,1,1,1,1,1,0]]]).getD
        ([], [], [])).1 0 0 = ([(1:ℚ),1,1,1,1,1,1]).sum := rfl
    rw [h]
    norm_num
  · exact windowSum_stop_nonpos _ _ _ (by norm_num)
  · rw [hg]
    have h : mrow ((stackedExtract [0, 0] 7 8
        [[[(5:ℚ),0,1,1,1,1,1,1,1,0]], [[(5:ℚ),0,1,1,1,1,1,1,1,0]]]).getD
        ([], [], [])).2.2 0 0 = windowMaskRow (-8) (-1) 10 := rfl
    rw [h]
    exact windowMaskRow_all_false_of_stop_nonpos _ _ _ (by norm_num)

/-- C6 (amended): FullIntegrator, SimpleIntegrator, LocalPeakIntegrator and
NeighbourPeakIntegrator return charge and peak-position arrays of shape
(n_chan, n_pix) matching the first two axes of the cube; GlobalPeakIntegrator
and AverageWfPeakIntegrator instead return a charge array with exactly two
rows (the pixel rows of channels 0 and 1) and a one-dimensional peak-position
array of length n_chan. -/
theorem C6_amended (w : Cube) (ws ww sh lwt : ℤ) (ns : List (ℕ × ℕ)) :
    dim2 (FullIntegrator.extract_charge w).1 = pixDims w ∧
    dim2 (FullIntegrator.extract_charge w).2.1 = pixDims w ∧
    dim2 (SimpleIntegrator.extract_charge ws ww w).1 = pixDims w ∧
    dim2 (SimpleIntegrator.extract_charge ws ww w).2.1 = pixDims w ∧
    dim2 (LocalPeakIntegrator.extract_charge ww sh w).1 = pixDims w ∧
    dim2 (LocalPeakIntegrator.extract_charge ww sh w).2.1 = pixDims w ∧
    dim2 ((NeighbourPeakIntegrator.extract_charge ww sh lwt (some ns) w).toOption.getD
      ([], [], [])).1 = pixDims w ∧
    dim2 ((NeighbourPeakIntegrator.extract_charge ww sh lwt (some ns) w).toOption.getD
      ([], [], [])).2.1 = pixDims w ∧
    (2 ≤ w.length →
      ((GlobalPeakIntegrator.extract_charge ww sh w).getD ([], [], [])).1.length = 2 ∧
      ((GlobalPeakIntegrator.extract_charge ww sh w).getD ([], [], [])).2.1.length
        = w.length ∧
      ((AverageWfPeakIntegrator.extract_charge ww sh w).getD ([], [], [])).1.length = 2 ∧
      ((AverageWfPeakIntegrator.extract_charge ww sh w).getD ([], [], [])).2.1.length
        = w.length) := by
  refine ⟨dim2_map_map w List.sum, dim2_map_map w (fun _ => (0 : ℤ)),
    dim2_map_map w (fun px => (pySlice px ws (ws + ww)).sum),
    dim2_map_map w (fun _ => (0 : ℤ)), ?_, dim2_map_map w (fun px => (argmax px : ℤ)),
    ?_, ?_, ?_⟩
  · show dim2 (extract_charge_from_peakpos_array w
      (w.map (fun ch => ch.map (fun px => (argmax px : ℤ)))) ww sh).1 = pixDims w
    apply dim2_extract_charge
    · rw [List.length_map]
    · intro c hc
      rw [getD_map_lt _ [] [] w c hc, List.length_map]
  · show dim2 (extract_charge_from_peakpos_array w
      ((neighbor_average_waveform w ns lwt).map
        (fun ch => ch.map (fun px => (argmax px : ℤ)))) ww sh).1 = pixDims w
    apply dim2_extract_charge
    · rw [List.length_map, nav_length]
    · intro c hc
      rw [getD_map_lt _ [] [] _ c (by rw [nav_length]; exact hc), List.length_map,
        nav_chan_length w ns lwt c hc]
  · show dim2 ((neighbor_average_waveform w ns lwt).map
      (fun ch => ch.map (fun px => (argmax px : ℤ)))) = pixDims w
    exact (dim2_map_map _ _).trans
      (pixDims_eq_of_shape3 _ _ (shape3_nav w ns lwt))
  · intro h2
    refine ⟨?_, ?_, ?_, ?_⟩
    · show ((stackedExtract (globalPeakPeakpos w) ww sh w).getD ([], [], [])).1.length = 2
      rw [stackedExtract_charge_length, if_pos h2]
    · show ((stackedExtract (globalPeakPeakpos w) ww sh w).getD ([], [], [])).2.1.length
        = w.length
      rw [stackedExtract_peakpos _ _ _ _ h2, length_globalPeakPeakpos]
    · show ((stackedExtract (avgWfPeakpos w) ww sh w).getD ([], [], [])).1.length = 2
      rw [stackedExtract_charge_length, if_pos h2]
    · show ((stackedExtract (avgWfPeakpos w) ww sh w).getD ([], [], [])).2.1.length
        = w.length
      rw [stackedExtract_peakpos _ _ _ _ h2, length_avgWfPeakpos]

/-- C6 witness: the GlobalPeakIntegrator facts of the amended claim at a
concrete two-channel cube. -/
theorem C6_witness :
    2 ≤ ([[[(1:ℚ)]], [[(1:ℚ)]]] : Cube).length ∧
    ((GlobalPeakIntegrator.extract_charge 7 3
      [[[(1:ℚ)]], [[(1:ℚ)]]]).getD ([], [], [])).1.length = 2 :=
  ⟨by norm_num,
    ((C6_amended [[[(1:ℚ)]], [[(1:ℚ)]]] 0 7 3 0 []).2.2.2.2.2.2.2.2 (by norm_num)).1⟩

/-- C6 counterexample: on a three-channel cube the GlobalPeakIntegrator
charge array has two rows, not three, so the charge array does not share the
(channel, pixel) shape of the input cube. -/
theorem C6_counterexample :
    ((GlobalPeakIntegrator.extract_charge 7 3
      [[[(1:ℚ)]], [[(1:ℚ)]], [[(1:ℚ)]]]).getD ([], [], [])).1.length = 2 ∧
    ([[[(1:ℚ)]], [[(1:ℚ)]], [[(1:ℚ)]]] : Cube).length = 3 :=
  ⟨rfl, rfl⟩

/-- C7: whenever the window width is non-positive,
extract_charge_from_peakpos_array returns an all-False mask and zero charge
everywhere, and no error occurs. -/
theorem C7_nonpositive_width (w : Cube) (pp : List (List ℤ)) (width shift : ℤ)
    (hw : width ≤ 0) :
    (∀ c p b, b ∈ mrow (extract_charge_from_peakpos_array w pp width shift).2 c p →
      b = false) ∧
    (∀ c p, at2 (extract_charge_from_peakpos_array w pp width shift).1 c p = 0) := by
  have hmask : ∀ c p b,
      b ∈ mrow (extract_charge_from_peakpos_array w pp width shift).2 c p → b = false := by
    intro c p b hb
    rcases mrow_extract_cases w pp width shift c p with h | ⟨s, n, h⟩
    · rw [h] at hb
      exact absurd hb (List.not_mem_nil b)
    · rw [h] at hb
      exact windowMaskRow_all_false s (s + width) n (by omega) b hb
  refine ⟨hmask, fun c p => ?_⟩
  rw [extract_consistent w pp width shift c p]
  exact maskedSum_all_false _ _ (hmask c p)

/-- C7 witness: width -1 gives zero charge at a concrete cube. -/
theorem C7_witness :
    (-1 : ℤ) ≤ 0 ∧
    at2 (extract_charge_from_peakpos_array [[[(1:ℚ), 2]]] [[0]] (-1) 0).1 0 0 = 0 :=
  ⟨by norm_num,
    (C7_nonpositive_width [[[(1:ℚ), 2]]] [[0]] (-1) 0 (by norm_num)).2 0 0⟩

/-- C8 (amended): GlobalPeakIntegrator computes, per channel, the peak
position as the amplitude-weighted average of the per-pixel argmax sample
indices with weights equal to the per-pixel maximum amplitudes, rounded to
the nearest integer with ties rounding half to even (numpy.round), not half
away from zero. -/
theorem C8_globalPeak_round_half_even (w : Cube) :
    globalPeakPeakpos w = w.map (fun ch =>
      roundHalfEven ((ch.map (fun px => (argmax px : ℚ) * maxVal px)).sum
        / (ch.map maxVal).sum)) := by
  unfold globalPeakPeakpos
  apply List.map_congr_left
  intro ch _
  rw [npAverage_map_map]

/-- C8 counterexample: on a cube whose channels hold the pixels [1, 0] and
[0, 1], the weighted average of the argmax positions is 1/2; numpy.round
gives peak position 0 (half to even) while the half-away-from-zero rule the
claim states gives 1. -/
theorem C8_counterexample :
    globalPeakPeakpos [[[(1:ℚ),0],[0,1]], [[(1:ℚ),0],[0,1]]] = [0, 0] ∧
    specGlobalPeakposHalfAway [[[(1:ℚ),0],[0,1]], [[(1:ℚ),0],[0,1]]] = [1, 1] := by
  have havg : npAverage [((argmax [(1:ℚ), 0] : ℕ) : ℚ), ((argmax [(0:ℚ), 1] : ℕ) : ℚ)]
      [maxVal [(1:ℚ), 0], maxVal [(0:ℚ), 1]] = 1 / 2 := by
    norm_num [npAverage, argmax, argmaxAux, maxVal, max_def]
  have hrhe : roundHalfEven (1 / 2 : ℚ) = 0 := by norm_num [roundHalfEven]
  have hrha : roundHalfAway (1 / 2 : ℚ) = 1 := by norm_num [roundHalfAway]
  constructor
  · simp only [globalPeakPeakpos, List.map_cons, List.map_nil]
    rw [havg, hrhe]
  · simp only [specGlobalPeakposHalfAway, List.map_cons, List.map_nil]
    rw [havg, hrha]

/-- C9: on a channel whose pixels all carry the identical waveform (with a
nonzero maximum amplitude, so that the weighted average is defined),
GlobalPeakIntegrator and AverageWfPeakIntegrator report the same scalar peak
position for that channel. -/
theorem C9_uniform_peakpos_agree (w : Cube) (c P : ℕ) (w0 : List ℚ)
    (hch : w.getD c [] = List.replicate P w0) (hP : 0 < P) (hm : maxVal w0 ≠ 0) :
    (globalPeakPeakpos w).getD c 0 = (avgWfPeakpos w).getD c 0 := by
  have hc : c < w.length := by
    by_contra hcon
    rw [getD_len_le [] w c (Nat.le_of_not_lt hcon)] at hch
    have hl := congrArg List.length hch
    simp at hl
    omega
  rw [globalPeakPeakpos_getD w c hc, avgWfPeakpos_getD w c hc, hch,
    List.map_replicate, List.map_replicate,
    npAverage_replicate P _ _ (by omega) hm, meanRow_replicate P w0 (by omega),
    show (((argmax w0 : ℕ) : ℚ)) = (((argmax w0 : ℕ) : ℤ) : ℚ) by push_cast; ring,
    roundHalfEven_intCast]

/-- C9 witness: both strategies report peak position 1 on a one-channel cube
whose two pixels both carry the waveform [0, 2]. -/
theorem C9_witness :
    ([[[(0:ℚ), 2], [0, 2]]] : Cube).getD 0 [] = List.replicate 2 [(0:ℚ), 2] ∧
    maxVal [(0:ℚ), 2] ≠ 0 ∧
    (globalPeakPeakpos [[[(0:ℚ), 2], [0, 2]]]).getD 0 0
      = (avgWfPeakpos [[[(0:ℚ), 2], [0, 2]]]).getD 0 0 :=
  ⟨rfl, by norm_num [maxVal, max_def],
    C9_uniform_peakpos_agree [[[(0:ℚ), 2], [0, 2]]] 0 2 [(0:ℚ), 2] rfl (by norm_num)
      (by norm_num [maxVal, max_def])⟩

/-- C10: GlobalPeakIntegrator and AverageWfPeakIntegrator stack exactly the
charge rows of channels 0 and 1: their charge array has exactly two rows for
every cube with at least two channels regardless of the channel count, and
on a cube with fewer than two channels both strategies fail (IndexError,
embedded as none). -/
theorem C10_two_channel_stack (w : Cube) (ww sh : ℤ) :
    (GlobalPeakIntegrator.extract_charge ww sh w = none ↔ w.length < 2) ∧
    ((GlobalPeakIntegrator.extract_charge ww sh w).getD ([], [], [])).1.length
      = (if 2 ≤ w.length then 2 else 0) ∧
    (AverageWfPeakIntegrator.extract_charge ww sh w = none ↔ w.length < 2) ∧
    ((AverageWfPeakIntegrator.extract_charge ww sh w).getD ([], [], [])).1.length
      = (if 2 ≤ w.length then 2 else 0) :=
  ⟨stackedExtract_none_iff (globalPeakPeakpos w) ww sh w,
   stackedExtract_charge_length (globalPeakPeakpos w) ww sh w,
   stackedExtract_none_iff (avgWfPeakpos w) ww sh w,
   stackedExtract_charge_length (avgWfPeakpos w) ww sh w⟩

/-- C10 witness: a one-channel cube makes GlobalPeakIntegrator fail, and a
two-channel cube yields a charge array with exactly two rows. -/
theorem C10_witness :
    GlobalPeakIntegrator.extract_charge 7 3 [[[(1:ℚ)]]] = none ∧
    ((GlobalPeakIntegrator.extract_charge 7 3
      [[[(1:ℚ)]], [[(1:ℚ)]]]).getD ([], [], [])).1.length = 2 :=
  ⟨(C10_two_channel_stack [[[(1:ℚ)]]] 7 3).1.mpr (by norm_num),
   by rw [(C10_two_channel_stack [[[(1:ℚ)]], [[(1:ℚ)]]] 7 3).2.1]; norm_num⟩

end Ctapipe
